import Mathlib

/-!
# Verification model of the libtvg core (pytvg)

The Python module `src/libtvg/pytvg.py` is a ctypes binding: the data
structures (sparse vectors / graphs), the TVG store, the sliding-window
metrics, BFS and the document-source adapter are implemented in the C
library `libtvg`, which is not part of the sources given here.  The
definitions below therefore model those operations from the
specification (spec.md), keeping faithfully to the behaviour pinned
down by the unit tests that *are* part of `pytvg.py`
(`VectorTests`, `GraphTests`, `TVGTests`, `WindowTests`, `MongoDBTests`).

Weights (C `float`) are modelled as exact rationals, timestamps
(C `uint64_t`) and window offsets (C `int64_t`) as integers.
-/

namespace LibTvg

/-- A sparse map from keys to weights: the edge/entry storage of
`struct vector` / `struct graph`.  An absent key reads as zero.
Modelled from the spec: "Mapping from unsigned 64-bit index to 32-bit
float weight; absent entries read as zero." -/
abbrev SMap (α : Type) : Type := List (α × ℚ)

namespace SMap

variable {α : Type} [DecidableEq α]

/-- The empty vector / graph. -/
def empty : SMap α := []

/-- `get m k`: the weight stored at `k`, zero if absent (summing
duplicates, which never arise for maps built by the operations below).
Models `vector_get_entry` / `graph_get_edge`. -/
def get : SMap α → α → ℚ
  | [], _ => 0
  | (j, w) :: r, k => (if j = k then w else 0) + get r k

/-- `has m k`: whether an entry with key `k` is stored.
Models `vector_has_entry` / `graph_has_edge`. -/
def has : SMap α → α → Bool
  | [], _ => false
  | (j, _) :: r, k => decide (j = k) || has r k

/-- Remove every entry with key `k`. -/
def erase : SMap α → α → SMap α
  | [], _ => []
  | (j, w) :: r, k => if j = k then erase r k else (j, w) :: erase r k

/-- The list of stored keys. -/
def keys (m : SMap α) : List α := m.map Prod.fst

/-- Sum of all stored weights (the "total edge weight" of a graph). -/
def wsum (m : SMap α) : ℚ := (m.map Prod.snd).sum

end SMap

/-- The `nonzero` / `positive` flag bits of a vector or graph
(`TVG_FLAGS_NONZERO`, `TVG_FLAGS_POSITIVE`). -/
structure Flags where
  nonzero : Bool
  positive : Bool
deriving DecidableEq, Repr

/-- Whether a freshly computed weight `w` is kept as a stored entry.
Modelled from the spec: "Zero/positive policies are enforced *after*
the arithmetic: if the resulting weight has `|w| < eps` and `nonzero`
is set, the entry is removed; if `w < 0` and `positive` is set, it is
removed."  The unit tests (`VectorTests.test_flags` with `eps = 0.5`:
`0.75 - 0.25` is removed) pin the comparison down to `|w| ≤ eps`
(respectively `w ≤ eps` under `positive`). -/
def keepWeight (fl : Flags) (eps w : ℚ) : Bool :=
  if fl.positive then decide (eps < w)
  else if fl.nonzero then decide (eps < |w|)
  else true

namespace SMap

variable {α : Type} [DecidableEq α]

/-- `set` (`vector_set_entry` / `graph_set_edge`): store weight `w` at
key `k`, subject to the flag policy. -/
def setE (fl : Flags) (eps : ℚ) (m : SMap α) (k : α) (w : ℚ) : SMap α :=
  if keepWeight fl eps w then erase m k ++ [(k, w)] else erase m k

/-- `add` (`vector_add_entry` / `graph_add_edge`). -/
def addE (fl : Flags) (eps : ℚ) (m : SMap α) (k : α) (w : ℚ) : SMap α :=
  setE fl eps m k (get m k + w)

/-- `sub` (`vector_sub_entry` / `graph_sub_edge`). -/
def subE (fl : Flags) (eps : ℚ) (m : SMap α) (k : α) (w : ℚ) : SMap α :=
  setE fl eps m k (get m k - w)

/-- `del` (`vector_del_entry` / `graph_del_edge`). -/
def delE (m : SMap α) (k : α) : SMap α := erase m k

/-- `mul_const`: scale every entry in place; entries that violate the
flag policy after scaling "are removed atomically as part of the
scale" (spec §4.1). -/
def mulConst (fl : Flags) (eps : ℚ) (c : ℚ) (m : SMap α) : SMap α :=
  (m.map (fun p => (p.1, c * p.2))).filter (fun p => keepWeight fl eps p.2)

end SMap

/-- One mutation of a sparse vector / graph, as enumerated in claim C7. -/
inductive Op (α : Type) where
  | set (k : α) (w : ℚ)
  | add (k : α) (w : ℚ)
  | sub (k : α) (w : ℚ)
  | del (k : α)
  | mul (c : ℚ)

/-- Apply one mutation. -/
def applyOp {α : Type} [DecidableEq α] (fl : Flags) (eps : ℚ)
    (m : SMap α) : Op α → SMap α
  | .set k w => m.setE fl eps k w
  | .add k w => m.addE fl eps k w
  | .sub k w => m.subE fl eps k w
  | .del k => m.delE k
  | .mul c => m.mulConst fl eps c

/-- Run a sequence of mutations starting from the empty object. -/
def runOps {α : Type} [DecidableEq α] (fl : Flags) (eps : ℚ)
    (ops : List (Op α)) : SMap α :=
  ops.foldl (applyOp fl eps) SMap.empty


/-! ## TVG store and sliding windows -/

/-- The edge store of one graph. -/
abbrev Gr : Type := SMap (ℕ × ℕ)

/-- A time-varying graph: the ordered collection of timestamped graphs.
Timestamps (`uint64_t` in C) are modelled as integers. -/
abbrev TVG : Type := List (ℤ × Gr)

/-- Whether a graph timestamp `ts` lies in the window anchored at `t`:
"Only graphs in [ts + window_l, ts + window_r] are considered"
(`TVG.Window` doc string in pytvg.py). -/
def inWindow (wl wr t ts : ℤ) : Bool :=
  decide (t + wl ≤ ts) && decide (ts ≤ t + wr)

/-- The window object allocated by `tvg_alloc_window`.
Modelled from the spec: left/right offsets are signed 64-bit values. -/
structure Window where
  window_l : ℤ
  window_r : ℤ
deriving DecidableEq, Repr

/-- Modelled from the spec: `tvg_alloc_window` rejects an empty-width
window ("Invariant: `window_r ≥ window_l` and at least one of them
defines a nonzero width; width 0 is rejected at construction"); the
binding then raises, producing no usable `Window` object
(`WindowTests.test_sum_edges` expects both `(0, 0)` and `(1, 0)` to be
rejected). -/
def allocWindow (wl wr : ℤ) : Option Window :=
  if wr ≤ wl then none else some ⟨wl, wr⟩

/-- The incrementally maintained state of a sum-edges metric:
anchor timestamp, validity bit (cleared by `reset`), and the pointwise
aggregate. -/
structure WinState where
  ts : ℤ
  valid : Bool
  state : (ℕ × ℕ) → ℚ

/-- A freshly allocated metric: no valid aggregate yet. -/
def initialWinState : WinState := ⟨0, false, fun _ => 0⟩

/-- The rectangular sum-edges aggregate computed from scratch:
"state = Σ{g ∈ T : t+w_l ≤ g.ts ≤ t+w_r} g" (spec §8). -/
def rectAggregate (tvg : TVG) (wl wr t : ℤ) : (ℕ × ℕ) → ℚ :=
  fun e => ((tvg.filter (fun g => inWindow wl wr t g.1)).map
    (fun g => g.2.get e)).sum

/-- Modelled from the spec (§4.4 window contract): `window_update` for
a rectangular sum-edges metric.  If the state is invalid it is rebuilt
from scratch; otherwise the engine folds the symmetric difference of
the old and new source sets into the running aggregate
("On add(g): `state += g`.  On evict(g): `state -= g`"). -/
def rectUpdate (tvg : TVG) (wl wr : ℤ) (s : WinState) (t' : ℤ) : WinState :=
  if s.valid then
    { ts := t', valid := true,
      state := fun e => s.state e
        + ((tvg.filter (fun g =>
            inWindow wl wr t' g.1 && !inWindow wl wr s.ts g.1)).map
            (fun g => g.2.get e)).sum
        - ((tvg.filter (fun g =>
            inWindow wl wr s.ts g.1 && !inWindow wl wr t' g.1)).map
            (fun g => g.2.get e)).sum }
  else
    { ts := t', valid := true, state := rectAggregate tvg wl wr t' }

/-- The exponential-decay aggregate computed from scratch:
"state(t) = Σ{g in range} weight · exp(log_beta·(t − g.ts)) · g"
(spec §8), with `β = exp(log_beta)` given directly as the base. -/
def expAggregate (tvg : TVG) (wl wr : ℤ) (weight beta : ℚ) (t : ℤ) :
    (ℕ × ℕ) → ℚ :=
  fun e => ((tvg.filter (fun g => inWindow wl wr t g.1)).map
    (fun g => weight * beta ^ (t - g.1) * g.2.get e)).sum

/-- Modelled from the spec (§4.4): `window_update` for an
exponential-decay sum-edges metric.  "update(new_ts) multiplies the
current state by `β^(new_ts − old_ts)` (one scalar multiply of the
whole aggregate), then adds `weight · β^(new_ts − g.ts) · g` for each
newly entering source and subtracts the corresponding term for each
leaving source." -/
def expUpdate (tvg : TVG) (wl wr : ℤ) (weight beta : ℚ)
    (s : WinState) (t' : ℤ) : WinState :=
  if s.valid then
    { ts := t', valid := true,
      state := fun e => beta ^ (t' - s.ts) * s.state e
        + ((tvg.filter (fun g =>
            inWindow wl wr t' g.1 && !inWindow wl wr s.ts g.1)).map
            (fun g => weight * beta ^ (t' - g.1) * g.2.get e)).sum
        - ((tvg.filter (fun g =>
            inWindow wl wr s.ts g.1 && !inWindow wl wr t' g.1)).map
            (fun g => weight * beta ^ (t' - g.1) * g.2.get e)).sum }
  else
    { ts := t', valid := true, state := expAggregate tvg wl wr weight beta t' }

/-! ## TVG compression -/

/-- The lower bound of the compression bucket containing `ts`.
Modelled from the spec (§4.2): "Partitions the time axis into
half-open buckets `[offset + k·step, offset + (k+1)·step)`"; `step = 0`
means all timestamps fall into a single bucket. -/
def bucketTs (step offset ts : ℤ) : ℤ :=
  if step = 0 then offset else ts - (ts - offset) % step

/-- Edge-wise sum of two graphs (under the summing `SMap.get`,
concatenation of the entry lists is pointwise addition). -/
def addGraph (g h : Gr) : Gr := g ++ h

/-- Merge a graph into the bucket keyed `b` of a compressed TVG,
creating the bucket if it does not exist yet. -/
def insertBucket (b : ℤ) (g : Gr) : TVG → TVG
  | [] => [(b, g)]
  | (b0, g0) :: r =>
    if b0 = b then (b0, addGraph g0 g) :: r else (b0, g0) :: insertBucket b g r

/-- Modelled from the spec (§4.2): `tvg_compress(step, offset)`
"replaces every set of graphs falling into the same bucket by their
edge-wise sum, with the bucket's lower bound as the new timestamp". -/
def compress (step offset : ℤ) : TVG → TVG
  | [] => []
  | (ts, g) :: r => insertBucket (bucketTs step offset ts) g (compress step offset r)

/-- The graph stored at timestamp `b` of a TVG (its edge lists
concatenated; empty if absent). -/
def lookupTvg (l : TVG) (b : ℤ) : Gr :=
  ((l.filter (fun p => decide (p.1 = b))).map Prod.snd).flatten

/-- Total edge weight of a whole TVG: `Σ_g Σ_{s,t} g[s,t]` (spec §8). -/
def totalWeight (l : TVG) : ℚ := (l.map (fun p => p.2.wsum)).sum

/-! ## Breadth-first search by accumulated weight -/

/-- One BFS queue/visitor entry: `(weight, count, edge_from, edge_to)`
as delivered to the visitor callback (`Graph.bfs_weight` returns a
list of such tuples, with `edge_from = None` for the source). -/
structure BfsEntry where
  weight : ℚ
  count : ℕ
  pred : Option ℕ
  node : ℕ
deriving DecidableEq, Repr

/-- Insert an edge `(target, weight)` into a target-sorted list. -/
def insertSorted (x : ℕ × ℚ) : List (ℕ × ℚ) → List (ℕ × ℚ)
  | [] => [x]
  | y :: r => if x.1 ≤ y.1 then x :: y :: r else y :: insertSorted x r

/-- Sort an edge list by target index. -/
def sortEdges : List (ℕ × ℚ) → List (ℕ × ℚ)
  | [] => []
  | x :: r => insertSorted x (sortEdges r)

/-- The outgoing edges of node `u`, in sorted key order
(spec §4.1: "`adjacent_edges(src)` enumerate in sorted key order"). -/
def adjacentOut (g : Gr) (u : ℕ) : List (ℕ × ℚ) :=
  sortEdges ((g.filter (fun p => decide (p.1.1 = u))).map
    (fun p => (p.1.2, p.2)))

/-- Extract the queue entry with the smallest accumulated weight,
keeping the earliest-inserted entry on ties (spec §4.1 *weight mode*:
"Ties broken by insertion order"). -/
def extractMin : List BfsEntry → Option (BfsEntry × List BfsEntry)
  | [] => none
  | e :: r =>
    match extractMin r with
    | none => some (e, [])
    | some (m, r') =>
      if m.weight < e.weight then some (m, e :: r') else some (e, r)

/-- Modelled from the spec (§4.1 BFS *weight mode*): best-first
expansion ordered by accumulated edge-weight sum from the source along
the cheapest known path; each dequeued unvisited node is reported to
the visitor and its outgoing edges are appended to the queue.  `fuel`
bounds the iteration count (the C loop terminates because the queue
shrinks; the bound chosen below is never reached). -/
def bfsRun (g : Gr) : ℕ → List BfsEntry → List BfsEntry → List BfsEntry
  | 0, visited, _ => visited
  | fuel + 1, visited, queue =>
    match extractMin queue with
    | none => visited
    | some (e, rest) =>
      if (visited.map (fun v => v.node)).contains e.node then
        bfsRun g fuel visited rest
      else
        bfsRun g fuel (visited ++ [e])
          (rest ++ (adjacentOut g e.node).map
            (fun q => ⟨e.weight + q.2, e.count + 1, some e.node, q.1⟩))

/-- `graph_bfs(source, use_weights = 1)` as wrapped by
`Graph.bfs_weight`: the full list of visited entries in visit order. -/
def bfsWeight (g : Gr) (source : ℕ) : List BfsEntry :=
  bfsRun g ((g.length + 1) * (2 * g.length + 2)) [] [⟨0, 0, none, source⟩]

/-! ## Document-source adapter (entity co-occurrence graphs) -/

/-- One entity mention `(sen, ent)` of an article, as produced by the
`find_entities` cursor. -/
abbrev Occurrence : Type := ℕ × ℕ

/-- All unordered pairs of mentions, each pair once, in document
order. -/
def pairsOf : List Occurrence → List (Occurrence × Occurrence)
  | [] => []
  | a :: r => r.map (fun b => (a, b)) ++ pairsOf r

/-- Sentence distance `|sen1 − sen2|`. -/
def sdist (a b : ℕ) : ℕ := max a b - min a b

/-- Canonical (unordered) edge key for an entity pair. -/
def edgeKey (e1 e2 : ℕ) : ℕ × ℕ := (min e1 e2, max e1 e2)

/-- Modelled from the spec (§6 document source contract): the
qualifying mention pairs of one article, as `(edge key, distance)`:
"for each pair of mentions `(e1 at sen1)`, `(e2 at sen2)` in the same
article with `e1 ≠ e2` and `|sen1 − sen2| ≤ max_distance` ...
Self-pairs are ignored." -/
def qualPairs (maxD : ℕ) (occ : List Occurrence) : List ((ℕ × ℕ) × ℕ) :=
  (pairsOf occ).filterMap (fun q =>
    if q.1.2 = q.2.2 then none
    else if sdist q.1.1 q.2.1 ≤ maxD then
      some (edgeKey q.1.2 q.2.2, sdist q.1.1 q.2.1)
    else none)

/-- The article graph with `sum_weights` set: "per-edge contributions
sum across all qualifying pairs".  `W d` stands for the co-occurrence
weight `exp(−d)` (kept abstract: `exp` is irrational). -/
def occGraphSum (W : ℕ → ℚ) (maxD : ℕ) (occ : List Occurrence) : Gr :=
  (qualPairs maxD occ).map (fun p => (p.1, W p.2))

/-- Record a qualifying distance for an edge, keeping the minimum. -/
def insMin (e : ℕ × ℕ) (d : ℕ) : List ((ℕ × ℕ) × ℕ) → List ((ℕ × ℕ) × ℕ)
  | [] => [(e, d)]
  | (e0, d0) :: r =>
    if e0 = e then (e0, min d0 d) :: r else (e0, d0) :: insMin e d r

/-- Per-edge minimum distance over a list of qualifying pairs. -/
def minPairs : List ((ℕ × ℕ) × ℕ) → List ((ℕ × ℕ) × ℕ)
  | [] => []
  | (e, d) :: r => insMin e d (minPairs r)

/-- First stored distance for edge `e` (the lists built by `minPairs`
have duplicate-free keys). -/
def lookupD : List ((ℕ × ℕ) × ℕ) → (ℕ × ℕ) → Option ℕ
  | [], _ => none
  | (e0, d0) :: r, e => if e0 = e then some d0 else lookupD r e

/-- The distances of all qualifying pairs for edge `e`. -/
def distsFor (l : List ((ℕ × ℕ) × ℕ)) (e : ℕ × ℕ) : List ℕ :=
  (l.filter (fun p => decide (p.1 = e))).map Prod.snd

/-- Minimum of a list of distances, `none` for the empty list. -/
def minList : List ℕ → Option ℕ
  | [] => none
  | d :: r =>
    match minList r with
    | none => some d
    | some m => some (min d m)

/-- The article graph with `sum_weights` unset: "otherwise only the
smallest-distance pair contributes" (spec §6). -/
def occGraphMin (W : ℕ → ℚ) (maxD : ℕ) (occ : List Occurrence) : Gr :=
  (minPairs (qualPairs maxD occ)).map (fun p => (p.1, W p.2))

/-! ## Result-object identity across `reset` / `update` -/

/-- A sum-edges window together with the pool of result graph objects
handed out so far.  `Graph.__init__(obj=...)` wraps the C pointer
returned by `metric_sum_edges_get_result`; a returned result stays
alive while the caller holds it.  Addresses are indices into `heap`. -/
structure WinSys where
  heap : List Gr
  resRef : Option ℕ
  ts : ℤ

/-- A freshly created window system: no result object exists yet. -/
def initialWinSys : WinSys := ⟨[], none, 0⟩

/-- The rectangular aggregate as a materialised edge list. -/
def rectAggGraph (tvg : TVG) (wl wr t : ℤ) : Gr :=
  ((tvg.filter (fun g => inWindow wl wr t g.1)).map Prod.snd).flatten

/-- `window_reset`: "marks the state invalid; the next `update`
rebuilds from scratch" (spec §4.4).  Modelled from the spec and from
the test comment "Clearing the window should not modify the last
output graph": the metric drops its reference to the result object;
the object itself survives for any caller still holding it. -/
def sysReset (s : WinSys) : WinSys := { s with resRef := none }

/-- `window_update` followed by `metric_sum_edges_get_result`: with no
valid result object, a fresh graph object is allocated for the new
aggregate; otherwise the existing result object is refreshed in
place. -/
def sysUpdate (tvg : TVG) (wl wr : ℤ) (s : WinSys) (t : ℤ) : WinSys :=
  match s.resRef with
  | none => { heap := s.heap ++ [rectAggGraph tvg wl wr t],
              resRef := some s.heap.length, ts := t }
  | some r => { heap := s.heap.set r (rectAggGraph tvg wl wr t),
                resRef := some r, ts := t }

/-- The graph object the metric currently reports as its result. -/
def sysResult (s : WinSys) : Gr :=
  match s.resRef with
  | none => []
  | some r => s.heap.getD r []

/-! ## Concrete fixtures from the unit tests -/

/-- The three-graph TVG of `WindowTests.test_sum_edges`: ts 100 with
edge `(0,0)=1`, ts 200 with `(0,1)=2`, ts 300 with `(0,2)=3`. -/
def tvgThree : TVG :=
  [(100, [((0, 0), 1)]), (200, [((0, 1), 2)]), (300, [((0, 2), 3)])]

/-- The one-graph TVG of `WindowTests.test_sum_edges_exp_precision`:
a single graph at ts 0 with edge `(0,0)=1`. -/
def tvgOne : TVG := [(0, [((0, 0), 1)])]

/-- `window_l` for an infinite look-back window (`-np.inf` is mapped
to `-0x8000000000000000` by `TVG.Window`). -/
def wlInf : ℤ := -(2 ^ 63)

/-- The directed test graph of `GraphTests.test_bfs`:
edges `(0,1)=1, (1,2)=1, (2,3)=1, (3,4)=1.5, (2,4)=1.5`. -/
def bfsGraph : Gr :=
  [((0, 1), 1), ((1, 2), 1), ((2, 3), 1), ((3, 4), 3/2), ((2, 4), 3/2)]

/-- `MongoDBTests.test_sum_weights` first occurrence list:
entity 1 in sentences 1 and 4, entity 2 in sentence 2. -/
def occurrences1 : List Occurrence := [(1, 1), (2, 2), (4, 1)]

/-- `MongoDBTests.test_sum_weights` second occurrence list:
entity 1 in sentences 1 and 4, entity 2 in sentence 3. -/
def occurrences2 : List Occurrence := [(1, 1), (3, 2), (4, 1)]

/-- `max_distance=None` is passed to C as `0xffffffffffffffff`. -/
def maxDistNone : ℕ := 2 ^ 64 - 1

/-! ## Python-level flag computation (`Vector.__init__` / `Graph.__init__`) -/

/-- `TVG_FLAGS_NONZERO` / `TVG_FLAGS_POSITIVE` as integer bit masks. -/
def FLAGS_NONZERO : ℕ := 1

/-- See `FLAGS_NONZERO`. -/
def FLAGS_POSITIVE : ℕ := 2

/-- The flag word assembled by `Vector.__init__` / `Graph.__init__`
in pytvg.py before calling `alloc_vector` / `alloc_graph`. -/
def pyObjectFlags (nonzero positive : Bool) : ℕ :=
  (if nonzero then FLAGS_NONZERO else 0) |||
    (if positive then FLAGS_POSITIVE else 0)

/-- Modelled from the spec/tests: the C allocator forces the
`nonzero` flag on whenever `positive` is requested
(`VectorTests.test_flags` and `GraphTests.test_flags` assert
`flags == TVG_FLAGS_NONZERO | TVG_FLAGS_POSITIVE` for
`Vector(positive=True)` / `Graph(positive=True)`). -/
def allocObjectFlags (f : ℕ) : ℕ :=
  if f &&& FLAGS_POSITIVE ≠ 0 then f ||| FLAGS_NONZERO else f
namespace SMap

variable {α : Type} [DecidableEq α]

lemma get_append (m n : SMap α) (k : α) :
    get (m ++ n) k = get m k + get n k := by
  induction m with
  | nil => simp [get]
  | cons p r ih => cases p with
    | mk j w => simp [get, ih]; ring

lemma get_erase (m : SMap α) (k j : α) :
    get (erase m k) j = if k = j then 0 else get m j := by
  induction m with
  | nil => simp [get, erase]
  | cons p r ih =>
    obtain ⟨i, w⟩ := p
    by_cases hik : i = k
    · subst hik
      rw [erase, if_pos rfl, ih]
      by_cases hij : i = j
      · simp [hij]
      · simp [get, hij]
    · rw [erase, if_neg hik, get, ih]
      by_cases hkj : k = j
      · subst hkj
        simp [get, hik]
      · simp [get, hkj]

lemma mem_erase {p : α × ℚ} {m : SMap α} {k : α} :
    p ∈ erase m k ↔ p ∈ m ∧ p.1 ≠ k := by
  induction m with
  | nil => simp [erase]
  | cons q r ih =>
    obtain ⟨i, w⟩ := q
    by_cases hik : i = k
    · subst hik
      rw [erase, if_pos rfl]
      rw [ih]
      constructor
      · rintro ⟨hm, hk⟩
        exact ⟨List.mem_cons_of_mem _ hm, hk⟩
      · rintro ⟨hm, hk⟩
        rcases List.mem_cons.mp hm with rfl | hm
        · exact absurd rfl hk
        · exact ⟨hm, hk⟩
    · rw [erase, if_neg hik]
      constructor
      · intro hp
        rcases List.mem_cons.mp hp with rfl | hp
        · exact ⟨List.mem_cons_self _ _, hik⟩
        · obtain ⟨hm, hk⟩ := ih.mp hp
          exact ⟨List.mem_cons_of_mem _ hm, hk⟩
      · rintro ⟨hm, hk⟩
        rcases List.mem_cons.mp hm with rfl | hm
        · exact List.mem_cons_self _ _
        · exact List.mem_cons_of_mem _ (ih.mpr ⟨hm, hk⟩)

lemma has_iff_exists {m : SMap α} {k : α} :
    has m k = true ↔ ∃ w, (k, w) ∈ m := by
  induction m with
  | nil => simp [has]
  | cons p r ih =>
    cases p with
    | mk j w =>
      simp only [has, Bool.or_eq_true, decide_eq_true_eq, ih, List.mem_cons]
      constructor
      · rintro (rfl | ⟨v, hv⟩)
        · exact ⟨w, Or.inl rfl⟩
        · exact ⟨v, Or.inr hv⟩
      · rintro ⟨v, hv | hv⟩
        · exact Or.inl (congrArg Prod.fst hv).symm
        · exact Or.inr ⟨v, hv⟩

lemma get_eq_zero_of_not_has {m : SMap α} {k : α}
    (h : has m k = false) : get m k = 0 := by
  induction m with
  | nil => simp [get]
  | cons p r ih =>
    cases p with
    | mk j w =>
      simp only [has, Bool.or_eq_false_iff, decide_eq_false_iff_not] at h
      simp [get, h.1, ih h.2]

lemma has_append (m n : SMap α) (k : α) :
    has (m ++ n) k = (has m k || has n k) := by
  induction m with
  | nil => simp [has]
  | cons p r ih =>
    obtain ⟨j, w⟩ := p
    simp [has, ih, Bool.or_assoc]

lemma get_of_mem_nodup {m : SMap α} {k : α} {w : ℚ}
    (hnd : (keys m).Nodup) (hm : (k, w) ∈ m) : get m k = w := by
  induction m with
  | nil => simp at hm
  | cons p r ih =>
    obtain ⟨j, v⟩ := p
    simp only [keys, List.map_cons, List.nodup_cons] at hnd
    rcases List.mem_cons.mp hm with h | h
    · cases h
      have hno : has r k = false := by
        cases hc : has r k
        · rfl
        · rcases has_iff_exists.mp hc with ⟨v', hv'⟩
          exact absurd (List.mem_map.mpr ⟨(k, v'), hv', rfl⟩) hnd.1
      simp [get, get_eq_zero_of_not_has hno]
    · have hjk : j ≠ k := by
        rintro rfl
        exact hnd.1 (List.mem_map.mpr ⟨(j, w), h, rfl⟩)
      simp [get, hjk, ih hnd.2 h]

lemma keys_nodup_erase {m : SMap α} (k : α)
    (hnd : (keys m).Nodup) : (keys (erase m k)).Nodup := by
  induction m with
  | nil => simp [erase, keys]
  | cons p r ih =>
    obtain ⟨j, w⟩ := p
    simp only [keys, List.map_cons, List.nodup_cons] at hnd
    by_cases hjk : j = k
    · simpa [erase, hjk] using ih hnd.2
    · simp only [keys, erase, if_neg hjk, List.map_cons, List.nodup_cons]
      refine ⟨fun hc => ?_, ih hnd.2⟩
      rcases List.mem_map.mp hc with ⟨q, hq, hq1⟩
      exact hnd.1 (List.mem_map.mpr ⟨q, (mem_erase.mp hq).1, hq1⟩)

lemma not_has_erase (m : SMap α) (k : α) : has (erase m k) k = false := by
  cases h : has (erase m k) k
  · rfl
  · rcases has_iff_exists.mp h with ⟨w, hw⟩
    exact absurd rfl (mem_erase.mp hw).2

/-- Keys remain duplicate-free under `set`. -/
lemma keys_nodup_setE (fl : Flags) (eps : ℚ) {m : SMap α} (k : α) (w : ℚ)
    (hnd : (keys m).Nodup) : (keys (setE fl eps m k w)).Nodup := by
  rw [setE]
  cases hkeep : keepWeight fl eps w
  · simp only [Bool.false_eq_true, if_false]
    exact keys_nodup_erase k hnd
  · simp only [if_true]
    have he := keys_nodup_erase (m := m) k hnd
    simp only [keys, List.map_append, List.map_cons, List.map_nil]
    rw [List.nodup_append]
    refine ⟨he, by simp, ?_⟩
    intro a ha hb
    simp only [List.mem_singleton] at hb
    subst hb
    rcases List.mem_map.mp ha with ⟨q, hq, hq1⟩
    exact (mem_erase.mp hq).2 hq1

/-- Every entry of `set`'s result was either already stored or passes
the keep-policy. -/
lemma mem_setE {fl : Flags} {eps : ℚ} {m : SMap α} {k : α} {w : ℚ}
    {p : α × ℚ} (hp : p ∈ setE fl eps m k w) :
    p ∈ m ∨ keepWeight fl eps p.2 = true := by
  rw [setE] at hp
  cases hkeep : keepWeight fl eps w
  · rw [hkeep] at hp
    simp only [Bool.false_eq_true, if_false] at hp
    exact Or.inl (mem_erase.mp hp).1
  · rw [hkeep] at hp
    simp only [if_true] at hp
    rcases List.mem_append.mp hp with h | h
    · exact Or.inl (mem_erase.mp h).1
    · simp only [List.mem_singleton] at h
      subst h
      exact Or.inr hkeep

lemma get_setE (fl : Flags) (eps : ℚ) (m : SMap α) (k : α) (w : ℚ) :
    get (setE fl eps m k w) k = if keepWeight fl eps w then w else 0 := by
  rw [setE]
  cases hkeep : keepWeight fl eps w
  · simp [get_erase]
  · simp [get_append, get_erase, get]

lemma has_setE (fl : Flags) (eps : ℚ) (m : SMap α) (k : α) (w : ℚ) :
    has (setE fl eps m k w) k = keepWeight fl eps w := by
  rw [setE]
  cases hkeep : keepWeight fl eps w
  · simp only [Bool.false_eq_true, if_false]
    exact not_has_erase m k
  · simp only [if_true]
    rw [has_append, not_has_erase]
    simp [has]

end SMap



/-! ## Incremental window updates reach the from-scratch aggregate -/

/-- Folding the symmetric difference of two filtered source sets into a
kernel-weighted sum, after rescaling by `m`, yields the new kernel sum.
The per-source hypothesis `g x = m * f x` relates old and new kernel
coefficients. -/
lemma filter_sum_update {X : Type} (l : List X) (p q : X → Bool)
    (f g : X → ℚ) (m : ℚ) (h : ∀ x ∈ l, g x = m * f x) :
    m * ((l.filter p).map f).sum
      + ((l.filter (fun x => q x && !p x)).map g).sum
      - ((l.filter (fun x => p x && !q x)).map g).sum
    = ((l.filter q).map g).sum := by
  induction l with
  | nil => simp
  | cons a r ih =>
    have ha := h a (List.mem_cons_self a r)
    have ih' := ih (fun x hx => h x (List.mem_cons_of_mem a hx))
    cases hp : p a <;> cases hq : q a <;>
      simp only [List.filter_cons, hp, hq, Bool.not_true, Bool.not_false,
        Bool.true_and, Bool.false_and, Bool.and_true, Bool.and_false,
        Bool.and_self, if_true, if_false, Bool.false_eq_true,
        List.map_cons, List.sum_cons, mul_add] <;> linarith

/-- An incremental rectangular-window update starting from any state
whose aggregate is correct for its anchor produces the from-scratch
rectangular aggregate for the new anchor. -/
lemma rectUpdate_correct (tvg : TVG) (wl wr : ℤ) (s : WinState) (t' : ℤ)
    (hs : s.valid = true → ∀ e, s.state e = rectAggregate tvg wl wr s.ts e) :
    ∀ e, (rectUpdate tvg wl wr s t').state e = rectAggregate tvg wl wr t' e := by
  intro e
  rw [rectUpdate]
  cases hv : s.valid
  · simp only [Bool.false_eq_true, if_false]
  · simp only [if_true]
    have h := filter_sum_update tvg (fun g => inWindow wl wr s.ts g.1)
      (fun g => inWindow wl wr t' g.1) (fun g => g.2.get e) (fun g => g.2.get e)
      1 (fun x _ => (one_mul _).symm)
    rw [one_mul] at h
    simp only [hs hv e, rectAggregate]
    linarith [h]

/-- An incremental exponential-decay update (rescale by
`β^(new − old)`, then fold the entering and leaving sources) starting
from any state whose aggregate is correct for its anchor produces the
from-scratch decayed aggregate for the new anchor. -/
lemma expUpdate_correct (tvg : TVG) (wl wr : ℤ) (weight beta : ℚ)
    (hb : beta ≠ 0) (s : WinState) (t' : ℤ)
    (hs : s.valid = true →
      ∀ e, s.state e = expAggregate tvg wl wr weight beta s.ts e) :
    ∀ e, (expUpdate tvg wl wr weight beta s t').state e
      = expAggregate tvg wl wr weight beta t' e := by
  intro e
  rw [expUpdate]
  cases hv : s.valid
  · simp only [Bool.false_eq_true, if_false]
  · simp only [if_true]
    have h := filter_sum_update tvg (fun g => inWindow wl wr s.ts g.1)
      (fun g => inWindow wl wr t' g.1)
      (fun g => weight * beta ^ (s.ts - g.1) * g.2.get e)
      (fun g => weight * beta ^ (t' - g.1) * g.2.get e)
      (beta ^ (t' - s.ts)) ?_
    · simp only [hs hv e, expAggregate]
      linarith [h]
    · intro x _
      have hz : beta ^ (t' - x.1) = beta ^ (t' - s.ts) * beta ^ (s.ts - x.1) := by
        rw [← zpow_add₀ hb]
        ring_nf
      show weight * beta ^ (t' - x.1) * x.2.get e
        = beta ^ (t' - s.ts) * (weight * beta ^ (s.ts - x.1) * x.2.get e)
      rw [hz]
      ring

/-- C1: For a rectangular sum-edges window with offsets `(w_l, w_r)`
over a TVG `T`, after `update(t)` the aggregate graph equals the
edge-wise sum of exactly those graphs `g ∈ T` with
`t + w_l ≤ g.ts ≤ t + w_r`; in particular, for a TVG with graphs at
ts 100 containing only `(0,0)=1`, ts 200 containing only `(0,1)=2`
and ts 300 containing only `(0,2)=3`, a window with offsets
`(-50, +50)` updated to `t = 200` yields an aggregate whose only edge
is `(0,1)=2`. -/
theorem rect_window_update_is_in_range_sum :
    (∀ (tvg : TVG) (wl wr : ℤ) (s : WinState) (t' : ℤ),
      (s.valid = true → ∀ e, s.state e = rectAggregate tvg wl wr s.ts e) →
      ∀ e, (rectUpdate tvg wl wr s t').state e = rectAggregate tvg wl wr t' e) ∧
    ((rectUpdate tvgThree (-50) 50 initialWinState 200).state (0, 1) = 2 ∧
      ∀ e : ℕ × ℕ, e ≠ (0, 1) →
        (rectUpdate tvgThree (-50) 50 initialWinState 200).state e = 0) := by
  refine ⟨fun tvg wl wr s t' hs => rectUpdate_correct tvg wl wr s t' hs, ?_, ?_⟩
  · norm_num [rectUpdate, initialWinState, rectAggregate, tvgThree, inWindow,
      SMap.get]
  · intro e he
    norm_num [rectUpdate, initialWinState, rectAggregate, tvgThree, inWindow,
      SMap.get, Ne.symm he]

/-- Witness for C1: a second update `100 → 200` starting from the
valid state produced by the first update reaches the same aggregate
of exactly the in-range graphs. -/
theorem rect_window_update_is_in_range_sum_witness :
    (rectUpdate tvgThree (-50) 50
        (rectUpdate tvgThree (-50) 50 initialWinState 100) 200).state (0, 1)
      = rectAggregate tvgThree (-50) 50 200 (0, 1) :=
  rect_window_update_is_in_range_sum.1 tvgThree (-50) 50
    (rectUpdate tvgThree (-50) 50 initialWinState 100) 200
    (fun _ e => by simp [rectUpdate, initialWinState]) (0, 1)

/-- C2: For an exponential-decay sum-edges window, the aggregate at
anchor `t` equals the sum over in-range source graphs of
`weight · β^(t − g.ts) · g` (with `β = exp(log_beta)`), independent of
the update path — the same state is reached whether `t` was reached in
one jump or many (exactly so in this idealised rational-arithmetic
model; the float implementation matches to within a tolerance).  In
particular, for a TVG containing one graph with edge `(0,0)=1` at
ts 0 and `β = 0.3` with an infinite window, `update(100)` yields
`(0,0) = 0.3^100` and a subsequent `update(0)` yields `(0,0) = 1`. -/
theorem exp_window_update_is_decayed_sum :
    (∀ (tvg : TVG) (wl wr : ℤ) (weight beta : ℚ), beta ≠ 0 →
      ∀ (s : WinState) (t' : ℤ),
      (s.valid = true →
        ∀ e, s.state e = expAggregate tvg wl wr weight beta s.ts e) →
      ∀ e, (expUpdate tvg wl wr weight beta s t').state e
        = expAggregate tvg wl wr weight beta t' e) ∧
    ((expUpdate tvgOne wlInf 0 1 (3/10) initialWinState 100).state (0, 0)
        = (3/10 : ℚ) ^ (100 : ℤ) ∧
      (expUpdate tvgOne wlInf 0 1 (3/10)
        (expUpdate tvgOne wlInf 0 1 (3/10) initialWinState 100) 0).state (0, 0)
        = 1) := by
  refine ⟨fun tvg wl wr weight beta hb s t' hs =>
    expUpdate_correct tvg wl wr weight beta hb s t' hs, ?_, ?_⟩
  · norm_num [expUpdate, initialWinState, expAggregate, tvgOne, inWindow,
      wlInf, SMap.get]
  · have h := expUpdate_correct tvgOne wlInf 0 1 (3/10) (by norm_num)
      (expUpdate tvgOne wlInf 0 1 (3/10) initialWinState 100) 0
      (fun _ e => by simp [expUpdate, initialWinState]) (0, 0)
    rw [h]
    norm_num [expAggregate, tvgOne, inWindow, wlInf, SMap.get]

/-- Witness for C2: the path-independence statement applied to the
concrete one-graph TVG, jumping `100 → 0` in one step. -/
theorem exp_window_update_is_decayed_sum_witness :
    (expUpdate tvgOne wlInf 0 1 (3/10)
        (expUpdate tvgOne wlInf 0 1 (3/10) initialWinState 100) 0).state (0, 0)
      = expAggregate tvgOne wlInf 0 1 (3/10) 0 (0, 0) :=
  exp_window_update_is_decayed_sum.1 tvgOne wlInf 0 1 (3/10) (by norm_num)
    (expUpdate tvgOne wlInf 0 1 (3/10) initialWinState 100) 0
    (fun _ e => by simp [expUpdate, initialWinState]) (0, 0)

/-! ## Compression: bucketing and total-weight preservation -/

lemma wsum_append {α : Type} (g h : SMap α) :
    SMap.wsum (g ++ h) = g.wsum + h.wsum := by
  simp [SMap.wsum]

lemma get_flatten {α : Type} [DecidableEq α] (L : List (SMap α)) (e : α) :
    SMap.get L.flatten e = (L.map (fun m => m.get e)).sum := by
  induction L with
  | nil => simp [SMap.get]
  | cons m r ih => simp [SMap.get_append, ih]

lemma get_lookupTvg_cons (b0 : ℤ) (g0 : Gr) (r : TVG) (b : ℤ) (e : ℕ × ℕ) :
    (lookupTvg ((b0, g0) :: r) b).get e
      = (if b0 = b then g0.get e else 0) + (lookupTvg r b).get e := by
  by_cases h : b0 = b <;>
    simp [lookupTvg, List.filter_cons, h, SMap.get_append]

lemma get_lookupTvg_insertBucket (b' : ℤ) (g : Gr) (l : TVG) (b : ℤ)
    (e : ℕ × ℕ) :
    (lookupTvg (insertBucket b' g l) b).get e
      = (if b' = b then g.get e else 0) + (lookupTvg l b).get e := by
  induction l with
  | nil =>
    by_cases h : b' = b <;>
      simp [insertBucket, lookupTvg, List.filter_cons, h, SMap.get,
        SMap.get_append]
  | cons p r ih =>
    obtain ⟨b0, g0⟩ := p
    by_cases h0 : b0 = b'
    · subst h0
      rw [insertBucket, if_pos rfl, get_lookupTvg_cons, get_lookupTvg_cons]
      by_cases h : b0 = b <;>
        simp [h, addGraph, SMap.get_append, add_comm, add_assoc, add_left_comm]
    · rw [insertBucket, if_neg h0, get_lookupTvg_cons, get_lookupTvg_cons, ih]
      ring

lemma get_lookupTvg_compress (step offset : ℤ) (tvg : TVG) (b : ℤ)
    (e : ℕ × ℕ) :
    (lookupTvg (compress step offset tvg) b).get e
      = ((tvg.filter (fun p => decide (bucketTs step offset p.1 = b))).map
          (fun p => p.2.get e)).sum := by
  induction tvg with
  | nil => simp [compress, lookupTvg, SMap.get]
  | cons p r ih =>
    obtain ⟨ts, g⟩ := p
    rw [compress, get_lookupTvg_insertBucket, ih]
    by_cases h : bucketTs step offset ts = b <;>
      simp [List.filter_cons, h]

lemma totalWeight_insertBucket (b : ℤ) (g : Gr) (l : TVG) :
    totalWeight (insertBucket b g l) = g.wsum + totalWeight l := by
  induction l with
  | nil => simp [insertBucket, totalWeight]
  | cons p r ih =>
    obtain ⟨b0, g0⟩ := p
    by_cases h0 : b0 = b
    · subst h0
      rw [insertBucket, if_pos rfl]
      simp [totalWeight, addGraph, wsum_append]
      ring
    · rw [insertBucket, if_neg h0]
      simp only [totalWeight, List.map_cons, List.sum_cons] at ih ⊢
      rw [ih]
      ring

lemma totalWeight_compress (step offset : ℤ) (tvg : TVG) :
    totalWeight (compress step offset tvg) = totalWeight tvg := by
  induction tvg with
  | nil => rfl
  | cons p r ih =>
    obtain ⟨ts, g⟩ := p
    rw [compress, totalWeight_insertBucket, ih]
    simp [totalWeight]

lemma bucketTs_eq_iff (step offset ts k : ℤ) (hstep : 0 < step) :
    bucketTs step offset ts = offset + k * step
      ↔ offset + k * step ≤ ts ∧ ts < offset + (k + 1) * step := by
  have hne : step ≠ 0 := ne_of_gt hstep
  have hb : bucketTs step offset ts
      = offset + step * ((ts - offset) / step) := by
    rw [bucketTs, if_neg hne, Int.emod_def]
    ring
  have hdm := Int.ediv_add_emod (ts - offset) step
  have hnn := Int.emod_nonneg (ts - offset) hne
  have hlt := Int.emod_lt_of_pos (ts - offset) hstep
  constructor
  · intro h
    rw [hb] at h
    have hk : (ts - offset) / step = k := by
      have := add_left_cancel h
      exact mul_left_cancel₀ hne (by linarith)
    rw [hk] at hdm
    constructor <;> nlinarith
  · rintro ⟨h1, h2⟩
    have hk : (ts - offset) / step = k := by
      have hge : k ≤ (ts - offset) / step := by
        rw [Int.le_ediv_iff_mul_le hstep]
        linarith
      have hlt' : (ts - offset) / step < k + 1 := by
        rw [Int.ediv_lt_iff_lt_mul hstep]
        linarith
      omega
    rw [hb, hk]
    ring

/-- C3: `compress(step, offset)` partitions the time axis into
half-open buckets `[offset + k·step, offset + (k+1)·step)` (a
timestamp lands in the bucket whose lower bound becomes its new
timestamp exactly when it satisfies the two bounds), replaces each set
of graphs falling into the same bucket by their edge-wise sum stored
under the bucket's lower bound, and for every `step` and `offset` the
total edge weight of the TVG is unchanged. -/
theorem compress_buckets_and_preserves_total_weight :
    (∀ step offset ts k : ℤ, 0 < step →
      (bucketTs step offset ts = offset + k * step
        ↔ offset + k * step ≤ ts ∧ ts < offset + (k + 1) * step)) ∧
    (∀ (step offset : ℤ) (tvg : TVG) (b : ℤ) (e : ℕ × ℕ),
      (lookupTvg (compress step offset tvg) b).get e
        = ((tvg.filter (fun p => decide (bucketTs step offset p.1 = b))).map
            (fun p => p.2.get e)).sum) ∧
    (∀ (step offset : ℤ) (tvg : TVG),
      totalWeight (compress step offset tvg) = totalWeight tvg) :=
  ⟨fun step offset ts k h => bucketTs_eq_iff step offset ts k h,
   get_lookupTvg_compress, totalWeight_compress⟩

/-- Witness for C3, on the fixture of `TVGTests.test_compress`
(`step = 5`, `offset = 100`): ts 3 falls in the bucket
`[0, 5) = [100 + (−20)·5, 100 + (−19)·5)`, the compressed bucket `0`
of a two-graph TVG sums the edges, and the total weight is kept. -/
theorem compress_buckets_and_preserves_total_weight_witness :
    bucketTs 5 100 3 = 100 + (-20) * 5 ∧
    SMap.get
        (lookupTvg (compress 5 100
          ([(0, [((0, 0), 2)]), (3, [((0, 0), 7)])] : TVG)) 0) (0, 0)
      = ((([(0, [((0, 0), 2)]), (3, [((0, 0), 7)])] : TVG).filter
          (fun p => decide (bucketTs 5 100 p.1 = 0))).map
          (fun p => SMap.get p.2 (0, 0))).sum ∧
    totalWeight (compress 5 100 ([(0, [((0, 0), 2)]), (3, [((0, 0), 7)])] : TVG))
      = totalWeight ([(0, [((0, 0), 2)]), (3, [((0, 0), 7)])] : TVG) := by
  refine ⟨?_, ?_, ?_⟩
  · exact (compress_buckets_and_preserves_total_weight.1 5 100 3 (-20)
      (by norm_num)).mpr (by norm_num)
  · exact compress_buckets_and_preserves_total_weight.2.1 5 100
      ([(0, [((0, 0), 2)]), (3, [((0, 0), 7)])] : TVG) 0 (0, 0)
  · exact compress_buckets_and_preserves_total_weight.2.2 5 100
      ([(0, [((0, 0), 2)]), (3, [((0, 0), 7)])] : TVG)

/-! ## Window construction, flag forcing, zero-entry policy -/

/-- C8: constructing a window whose width is zero
(`window_l = window_r`), and likewise any `window_r < window_l`, is
rejected at construction as an invalid argument: no usable `Window`
object is produced (and nothing else happens — the allocator is
pure), while every proper width is accepted. -/
theorem zero_width_window_rejected :
    (∀ wl wr : ℤ, wr ≤ wl → allocWindow wl wr = none) ∧
    (∀ wl wr : ℤ, wl < wr → allocWindow wl wr = some ⟨wl, wr⟩) ∧
    allocWindow 0 0 = none ∧ allocWindow 1 0 = none ∧
    allocWindow (-50) 50 = some ⟨-50, 50⟩ := by
  refine ⟨fun wl wr h => ?_, fun wl wr h => ?_, by decide, by decide, by decide⟩
  · rw [allocWindow, if_pos h]
  · rw [allocWindow, if_neg (not_le.mpr h)]

/-- Witness for C8: the rejection statement applied to the two window
shapes the tests construct, `(0, 0)` and `(1, 0)`. -/
theorem zero_width_window_rejected_witness :
    allocWindow 0 0 = none ∧ allocWindow 1 0 = none :=
  ⟨zero_width_window_rejected.1 0 0 (by decide),
   zero_width_window_rejected.1 1 0 (by decide)⟩

/-- C9: constructing a Vector or Graph with `positive=True` always
also sets the `nonzero` flag — the resulting flags word equals
`TVG_FLAGS_NONZERO | TVG_FLAGS_POSITIVE` even when `nonzero=False`
was requested — so the positive policy always operates together with
the eps-based zero-elimination policy (an entry kept by the positive
policy is always kept by the nonzero policy as well). -/
theorem positive_flag_forces_nonzero :
    (∀ nonzero positive : Bool, positive = true →
      allocObjectFlags (pyObjectFlags nonzero positive)
        = FLAGS_NONZERO ||| FLAGS_POSITIVE) ∧
    allocObjectFlags (pyObjectFlags false true) = 3 ∧
    (∀ (b : Bool) (eps w : ℚ), keepWeight ⟨b, true⟩ eps w = true →
      keepWeight ⟨true, false⟩ eps w = true) := by
  refine ⟨fun nonzero positive h => ?_, by decide, fun b eps w h => ?_⟩
  · subst h
    cases nonzero <;> decide
  · simp only [keepWeight, if_true, decide_eq_true_eq] at h
    simp only [keepWeight, Bool.false_eq_true, if_false, if_true,
      decide_eq_true_eq]
    exact lt_of_lt_of_le h (le_abs_self w)

/-- Witness for C9: `Vector(positive=True)` (with `nonzero=False`
requested) still carries both flag bits, and a weight surviving the
positive policy survives the nonzero policy. -/
theorem positive_flag_forces_nonzero_witness :
    allocObjectFlags (pyObjectFlags false true)
        = FLAGS_NONZERO ||| FLAGS_POSITIVE ∧
      keepWeight ⟨true, false⟩ 0 1 = true :=
  ⟨positive_flag_forces_nonzero.1 false true rfl,
   positive_flag_forces_nonzero.2.2 false 0 1 (by norm_num [keepWeight])⟩

/-- C6: for a Vector or Graph with neither policy flag set (the only
reachable way for `nonzero` to be unset, since `positive` forces
`nonzero` on), setting an entry/edge to 0 materialises the entry:
afterwards `has` is true and `get` returns 0 — "present with value
zero" is distinguishable from "absent".  With `nonzero` set (with or
without `positive`), setting to 0 removes the entry: afterwards `has`
is false.  Stated for the vector key type and the graph key type. -/
theorem set_zero_materialises_or_removes :
    ∀ eps : ℚ, 0 ≤ eps →
    (∀ (v : SMap ℕ) (k : ℕ),
      SMap.has (SMap.setE ⟨false, false⟩ eps v k 0) k = true ∧
      SMap.get (SMap.setE ⟨false, false⟩ eps v k 0) k = 0) ∧
    (∀ (v : SMap ℕ) (k : ℕ) (fl : Flags), fl.nonzero = true →
      SMap.has (SMap.setE fl eps v k 0) k = false) ∧
    (∀ (g : SMap (ℕ × ℕ)) (e : ℕ × ℕ),
      SMap.has (SMap.setE ⟨false, false⟩ eps g e 0) e = true ∧
      SMap.get (SMap.setE ⟨false, false⟩ eps g e 0) e = 0) ∧
    (∀ (g : SMap (ℕ × ℕ)) (e : ℕ × ℕ) (fl : Flags), fl.nonzero = true →
      SMap.has (SMap.setE fl eps g e 0) e = false) := by
  intro eps heps
  have hkeep0 : ∀ fl : Flags, fl.nonzero = true → keepWeight fl eps 0 = false := by
    intro fl h
    cases hp : fl.positive <;>
      simp [keepWeight, hp, h, not_lt.mpr heps]
  refine ⟨fun v k => ⟨?_, ?_⟩, fun v k fl h => ?_, fun g e => ⟨?_, ?_⟩,
    fun g e fl h => ?_⟩
  · rw [SMap.has_setE]
    rfl
  · rw [SMap.get_setE]
    rfl
  · rw [SMap.has_setE, hkeep0 fl h]
  · rw [SMap.has_setE]
    rfl
  · rw [SMap.get_setE]
    rfl
  · rw [SMap.has_setE, hkeep0 fl h]

/-- Witness for C6: applied at `eps = 0` to an empty vector and an
empty graph, with the plain and the `nonzero` flag configurations. -/
theorem set_zero_materialises_or_removes_witness :
    (SMap.has (SMap.setE ⟨false, false⟩ 0 ([] : SMap ℕ) 7 0) 7 = true ∧
      SMap.get (SMap.setE ⟨false, false⟩ 0 ([] : SMap ℕ) 7 0) 7 = 0) ∧
    SMap.has (SMap.setE ⟨true, false⟩ 0 ([] : SMap (ℕ × ℕ)) (0, 1) 0) (0, 1)
      = false :=
  ⟨(set_zero_materialises_or_removes 0 le_rfl).1 [] 7,
   (set_zero_materialises_or_removes 0 le_rfl).2.2.2 [] (0, 1) ⟨true, false⟩ rfl⟩

/-! ## Flag-policy invariants across arbitrary operation sequences -/

lemma keys_mulConst_sublist {α : Type} [DecidableEq α] (fl : Flags)
    (eps c : ℚ) (m : SMap α) :
    (SMap.keys (SMap.mulConst fl eps c m)).Sublist (SMap.keys m) := by
  induction m with
  | nil => simp [SMap.mulConst, SMap.keys]
  | cons p r ih =>
    simp only [SMap.mulConst, List.map_cons, List.filter_cons] at ih ⊢
    cases h : keepWeight fl eps (c * p.2)
    · simp only [Bool.false_eq_true, if_false]
      exact ih.cons _
    · simp only [if_true, SMap.keys, List.map_cons]
      exact ih.cons₂ _

lemma mem_mulConst {α : Type} [DecidableEq α] {fl : Flags} {eps c : ℚ}
    {m : SMap α} {p : α × ℚ} (hp : p ∈ SMap.mulConst fl eps c m) :
    keepWeight fl eps p.2 = true :=
  (List.mem_filter.mp hp).2

lemma mem_applyOp {α : Type} [DecidableEq α] {fl : Flags} {eps : ℚ}
    {m : SMap α} {o : Op α} {p : α × ℚ} (hp : p ∈ applyOp fl eps m o) :
    p ∈ m ∨ keepWeight fl eps p.2 = true := by
  cases o with
  | set k w => exact SMap.mem_setE hp
  | add k w => exact SMap.mem_setE hp
  | sub k w => exact SMap.mem_setE hp
  | del k => exact Or.inl (SMap.mem_erase.mp hp).1
  | mul c => exact Or.inr (mem_mulConst hp)

lemma keys_nodup_applyOp {α : Type} [DecidableEq α] (fl : Flags) (eps : ℚ)
    {m : SMap α} (o : Op α) (hnd : (SMap.keys m).Nodup) :
    (SMap.keys (applyOp fl eps m o)).Nodup := by
  cases o with
  | set k w => exact SMap.keys_nodup_setE fl eps k w hnd
  | add k w => exact SMap.keys_nodup_setE fl eps k _ hnd
  | sub k w => exact SMap.keys_nodup_setE fl eps k _ hnd
  | del k => exact SMap.keys_nodup_erase k hnd
  | mul c => exact hnd.sublist (keys_mulConst_sublist fl eps c m)

/-- Every state reached by a sequence of mutations from the empty
object has duplicate-free keys and only entries passing the
keep-policy. -/
lemma runOps_invariant {α : Type} [DecidableEq α] (fl : Flags) (eps : ℚ)
    (ops : List (Op α)) :
    (SMap.keys (runOps fl eps ops)).Nodup ∧
      ∀ p ∈ runOps fl eps ops, keepWeight fl eps p.2 = true := by
  suffices h : ∀ (m : SMap α),
      (SMap.keys m).Nodup → (∀ p ∈ m, keepWeight fl eps p.2 = true) →
      (SMap.keys (ops.foldl (applyOp fl eps) m)).Nodup ∧
        ∀ p ∈ ops.foldl (applyOp fl eps) m, keepWeight fl eps p.2 = true by
    exact h SMap.empty (by simp [SMap.keys, SMap.empty]) (by simp [SMap.empty])
  induction ops with
  | nil => exact fun m h1 h2 => ⟨h1, h2⟩
  | cons o rest ih =>
    intro m h1 h2
    rw [List.foldl_cons]
    exact ih (applyOp fl eps m o) (keys_nodup_applyOp fl eps o h1)
      (fun p hp => (mem_applyOp hp).elim (h2 p) id)

/-- C7: for every Vector carrying the `nonzero` flag (in any flag
combination) and every sequence of operations
(set, add, sub, del, mul_const) from the fresh empty object, every
stored entry `k` satisfies `|V[k]| ≥ eps`; for every Graph with the
`positive` flag, every stored edge `(s,t)` additionally satisfies
`G[s,t] > 0` — entries that become negative or fall below `eps` are
removed as part of the operation that produced them. -/
theorem policy_flags_entry_invariants :
    ∀ eps : ℚ, 0 ≤ eps →
    (∀ (fl : Flags) (ops : List (Op ℕ)) (k : ℕ), fl.nonzero = true →
      SMap.has (runOps fl eps ops) k = true →
      eps ≤ |SMap.get (runOps fl eps ops) k|) ∧
    (∀ (ops : List (Op (ℕ × ℕ))) (s t : ℕ),
      SMap.has (runOps ⟨true, true⟩ eps ops) (s, t) = true →
      0 < SMap.get (runOps ⟨true, true⟩ eps ops) (s, t)) := by
  intro eps heps
  constructor
  · intro fl ops k hnz hk
    obtain ⟨hnd, hkeep⟩ := runOps_invariant fl eps ops
    obtain ⟨w, hw⟩ := SMap.has_iff_exists.mp hk
    rw [SMap.get_of_mem_nodup hnd hw]
    have h := hkeep _ hw
    cases hp : fl.positive <;> rw [keepWeight, hp, hnz] at h <;>
      simp only [Bool.false_eq_true, if_false, if_true,
        decide_eq_true_eq] at h
    · exact le_of_lt h
    · exact le_of_lt (lt_of_lt_of_le h (le_abs_self w))
  · intro ops s t hk
    obtain ⟨hnd, hkeep⟩ := runOps_invariant ⟨true, true⟩ eps ops
    obtain ⟨w, hw⟩ := SMap.has_iff_exists.mp hk
    rw [SMap.get_of_mem_nodup hnd hw]
    have h := hkeep _ hw
    rw [keepWeight] at h
    simp only [if_true, decide_eq_true_eq] at h
    exact lt_of_le_of_lt heps h

/-- Witness for C7: a nonzero vector after `set 0 1; add 0 2` holds
`|3| ≥ 1/2`, and a positive graph after `set (0,0) 1; sub (0,0) (-2)`
holds `3 > 0`. -/
theorem policy_flags_entry_invariants_witness :
    (1/2 : ℚ) ≤ |SMap.get (runOps ⟨true, false⟩ (1/2)
        [Op.set 0 1, Op.add 0 2]) 0| ∧
      0 < SMap.get (runOps ⟨true, true⟩ (1/2)
        [Op.set (0, 0) 1, Op.sub (0, 0) (-2)]) (0, 0) := by
  constructor
  · exact (policy_flags_entry_invariants (1/2) (by norm_num)).1
      ⟨true, false⟩ [Op.set 0 1, Op.add 0 2] 0 rfl
      (by norm_num [runOps, applyOp, SMap.setE, SMap.addE, SMap.erase,
        SMap.empty, SMap.get, SMap.has, keepWeight])
  · exact (policy_flags_entry_invariants (1/2) (by norm_num)).2
      [Op.set (0, 0) 1, Op.sub (0, 0) (-2)] 0 0
      (by norm_num [runOps, applyOp, SMap.setE, SMap.subE, SMap.erase,
        SMap.empty, SMap.get, SMap.has, keepWeight])

/-! ## Result-object stability across `reset` / `update` -/

/-- C10: calling `Window.reset()` and then `update(t')` does not
modify the Graph object previously returned as the metric's result:
the old result object (still reachable at its old address) retains the
aggregate it held before the reset, while the new update allocates a
distinct result object holding the new aggregate.  Concretely, on the
three-graph TVG of `WindowTests.test_sum_edges`: after `update(300)`,
`reset()`, `update(100)`, the old result still reads `(0,2) = 3` and
the new result reads `(0,0) = 1` and `(0,2) = 0`. -/
theorem reset_update_preserves_old_result :
    (∀ (tvg : TVG) (wl wr : ℤ) (s : WinSys) (t' : ℤ) (r : ℕ),
      s.resRef = some r → r < s.heap.length →
      (sysUpdate tvg wl wr (sysReset s) t').heap.getD r [] = s.heap.getD r []
        ∧ (sysUpdate tvg wl wr (sysReset s) t').resRef = some s.heap.length
        ∧ s.heap.length ≠ r) ∧
    (SMap.get ((sysUpdate tvgThree (-50) 50
        (sysReset (sysUpdate tvgThree (-50) 50 initialWinSys 300))
        100).heap.getD 0 []) (0, 2) = 3
      ∧ (sysUpdate tvgThree (-50) 50
          (sysReset (sysUpdate tvgThree (-50) 50 initialWinSys 300))
          100).resRef = some 1
      ∧ SMap.get (sysResult (sysUpdate tvgThree (-50) 50
          (sysReset (sysUpdate tvgThree (-50) 50 initialWinSys 300))
          100)) (0, 0) = 1
      ∧ SMap.get (sysResult (sysUpdate tvgThree (-50) 50
          (sysReset (sysUpdate tvgThree (-50) 50 initialWinSys 300))
          100)) (0, 2) = 0) := by
  constructor
  · intro tvg wl wr s t' r hr hlen
    refine ⟨?_, rfl, Nat.ne_of_gt hlen⟩
    exact List.getD_append _ _ [] r hlen
  · refine ⟨?_, rfl, ?_, ?_⟩ <;>
      · norm_num [sysUpdate, sysReset, sysResult, initialWinSys, rectAggGraph,
          tvgThree, inWindow, SMap.get]
        try decide

/-- Witness for C10: the frame statement applied to the concrete
window system after `update(300)`, with the old result at address 0. -/
theorem reset_update_preserves_old_result_witness :
    (sysUpdate tvgThree (-50) 50
        (sysReset (sysUpdate tvgThree (-50) 50 initialWinSys 300)) 100).heap.getD
        0 []
      = (sysUpdate tvgThree (-50) 50 initialWinSys 300).heap.getD 0 []
    ∧ (sysUpdate tvgThree (-50) 50
        (sysReset (sysUpdate tvgThree (-50) 50 initialWinSys 300)) 100).resRef
      = some (sysUpdate tvgThree (-50) 50 initialWinSys 300).heap.length
    ∧ (sysUpdate tvgThree (-50) 50 initialWinSys 300).heap.length ≠ 0 :=
  reset_update_preserves_old_result.1 tvgThree (-50) 50
    (sysUpdate tvgThree (-50) 50 initialWinSys 300) 100 0 rfl
    (by norm_num [sysUpdate, initialWinSys])

/-! ## BFS in weight mode -/

/-- C4: BFS in weight mode expands nodes best-first by accumulated
edge-weight sum from the source along the cheapest known path, ties
broken by insertion order, and the visitor receives
`(accumulated_weight, hop_count, predecessor_or_none, node)` for each
dequeued node; on the directed graph with edges
`(0,1)=1, (1,2)=1, (2,3)=1, (3,4)=1.5, (2,4)=1.5`, weight-mode BFS
from source 0 visits exactly
`(0.0,0,None,0), (1.0,1,0,1), (2.0,2,1,2), (3.0,3,2,3), (3.5,3,2,4)`
in that order. -/
theorem bfs_weight_best_first_order :
    bfsWeight bfsGraph 0
      = [⟨0, 0, none, 0⟩, ⟨1, 1, some 0, 1⟩, ⟨2, 2, some 1, 2⟩,
         ⟨3, 3, some 2, 3⟩, ⟨7/2, 3, some 2, 4⟩] := by
  norm_num [bfsWeight, bfsGraph, bfsRun, extractMin, adjacentOut, sortEdges,
    insertSorted, List.contains]

/-! ## Entity co-occurrence graphs -/

lemma get_mapW (W : ℕ → ℚ) (l : List ((ℕ × ℕ) × ℕ)) (e : ℕ × ℕ) :
    SMap.get (l.map (fun p => (p.1, W p.2))) e
      = ((l.filter (fun p => decide (p.1 = e))).map (fun p => W p.2)).sum := by
  induction l with
  | nil => simp [SMap.get]
  | cons p r ih =>
    by_cases h : p.1 = e <;>
      simp [SMap.get, List.filter_cons, h, ih]

lemma lookupD_insMin (l : List ((ℕ × ℕ) × ℕ)) (e : ℕ × ℕ) (d : ℕ)
    (e' : ℕ × ℕ) :
    lookupD (insMin e d l) e'
      = if e = e' then
          (match lookupD l e' with
           | none => some d
           | some d0 => some (min d0 d))
        else lookupD l e' := by
  induction l with
  | nil =>
    by_cases h : e = e' <;> simp [insMin, lookupD, h]
  | cons p r ih =>
    obtain ⟨e0, d0⟩ := p
    by_cases h0 : e0 = e
    · subst h0
      rw [insMin, if_pos rfl]
      by_cases h' : e0 = e'
      · subst h'
        simp [lookupD]
      · simp [lookupD, h', Ne.symm h']
    · rw [insMin, if_neg h0]
      by_cases h' : e0 = e'
      · subst h'
        have hne : ¬e = e0 := fun hc => h0 hc.symm
        simp [lookupD, hne]
      · simp [lookupD, h', ih]

lemma lookupD_minPairs (l : List ((ℕ × ℕ) × ℕ)) (e : ℕ × ℕ) :
    lookupD (minPairs l) e = minList (distsFor l e) := by
  induction l with
  | nil => simp [minPairs, lookupD, distsFor, minList]
  | cons p r ih =>
    obtain ⟨e0, d0⟩ := p
    rw [minPairs, lookupD_insMin, ih]
    by_cases h : e0 = e
    · subst h
      simp only [if_pos rfl, distsFor, List.filter_cons, decide_eq_true_eq,
        if_pos rfl, List.map_cons, minList]
      cases hm : minList ((r.filter (fun p => decide (p.1 = e0))).map Prod.snd) <;>
        simp [min_comm]
    · simp only [if_neg h, distsFor, List.filter_cons]
      simp [h]

lemma mem_keys_insMin {l : List ((ℕ × ℕ) × ℕ)} {e : ℕ × ℕ} {d : ℕ}
    {k : ℕ × ℕ} :
    k ∈ (insMin e d l).map Prod.fst ↔ k ∈ l.map Prod.fst ∨ k = e := by
  induction l with
  | nil => simp [insMin]
  | cons p r ih =>
    obtain ⟨e0, d0⟩ := p
    by_cases h0 : e0 = e
    · subst h0
      rw [insMin, if_pos rfl]
      simp only [List.map_cons, List.mem_cons]
      constructor
      · rintro (rfl | h)
        · exact Or.inl (Or.inl rfl)
        · exact Or.inl (Or.inr h)
      · rintro ((rfl | h) | rfl)
        · exact Or.inl rfl
        · exact Or.inr h
        · exact Or.inl rfl
    · rw [insMin, if_neg h0]
      simp only [List.map_cons, List.mem_cons, ih]
      tauto

lemma keys_minPairs_nodup (l : List ((ℕ × ℕ) × ℕ)) :
    ((minPairs l).map Prod.fst).Nodup := by
  induction l with
  | nil => simp [minPairs]
  | cons p r ih =>
    obtain ⟨e, d⟩ := p
    rw [minPairs]
    generalize hm : minPairs r = m at ih
    clear hm
    induction m with
    | nil => simp [insMin]
    | cons q s ihm =>
      obtain ⟨e0, d0⟩ := q
      simp only [List.map_cons, List.nodup_cons] at ih
      by_cases h0 : e0 = e
      · subst h0
        rw [insMin, if_pos rfl]
        simp only [List.map_cons, List.nodup_cons]
        exact ih
      · rw [insMin, if_neg h0]
        simp only [List.map_cons, List.nodup_cons]
        refine ⟨fun hc => ?_, ihm ih.2⟩
        rcases mem_keys_insMin.mp hc with h | h
        · exact ih.1 h
        · exact h0 h

lemma get_mapW_zero (W : ℕ → ℚ) {l : List ((ℕ × ℕ) × ℕ)} {e : ℕ × ℕ}
    (he : e ∉ l.map Prod.fst) :
    SMap.get (l.map (fun p => (p.1, W p.2))) e = 0 := by
  induction l with
  | nil => simp [SMap.get]
  | cons p r ih =>
    simp only [List.map_cons, List.mem_cons] at he
    push_neg at he
    have h1 : ¬p.1 = e := fun hc => he.1 hc.symm
    simp [SMap.get, h1, ih he.2]

lemma get_mapW_of_lookupD (W : ℕ → ℚ) (l : List ((ℕ × ℕ) × ℕ)) (e : ℕ × ℕ)
    (hnd : (l.map Prod.fst).Nodup) :
    SMap.get (l.map (fun p => (p.1, W p.2))) e
      = match lookupD l e with
        | none => 0
        | some d => W d := by
  induction l with
  | nil => simp [SMap.get, lookupD]
  | cons p r ih =>
    obtain ⟨e0, d0⟩ := p
    simp only [List.map_cons, List.nodup_cons] at hnd
    by_cases h : e0 = e
    · subst h
      simp [SMap.get, lookupD, get_mapW_zero W hnd.1]
    · simp [SMap.get, lookupD, h, ih hnd.2]

lemma qualPairs_mem (maxD : ℕ) (occ : List Occurrence)
    {p : (ℕ × ℕ) × ℕ} (hp : p ∈ qualPairs maxD occ) :
    p.1.1 ≠ p.1.2 ∧ p.2 ≤ maxD := by
  rw [qualPairs] at hp
  obtain ⟨a, _, ha⟩ := List.mem_filterMap.mp hp
  by_cases hself : a.1.2 = a.2.2
  · rw [if_pos hself] at ha
    cases ha
  · rw [if_neg hself] at ha
    by_cases hd : sdist a.1.1 a.2.1 ≤ maxD
    · rw [if_pos hd] at ha
      cases ha
      refine ⟨?_, hd⟩
      exact ne_of_lt (min_lt_max.mpr hself)
    · rw [if_neg hd] at ha
      cases ha

/-- C5: building a graph from a document's entity occurrences adds an
edge for each pair of mentions `(e1 at sen1)`, `(e2 at sen2)` in the
same article with `e1 ≠ e2` and `|sen1 − sen2| ≤ max_distance`
(self-pairs contribute nothing, over-distant pairs contribute
nothing); with `sum_weights` the per-edge weight is the sum of
`W(|sen1 − sen2|)` over all qualifying pairs, and without
`sum_weights` only the smallest-distance pair contributes
(`W d` abstracts the weight `exp(−d)`).  The concrete instances of
`MongoDBTests.test_sum_weights` follow: both modes on the two test
occurrence lists. -/
theorem occurrence_graph_edge_weights :
    (∀ (maxD : ℕ) (occ : List Occurrence) (p : (ℕ × ℕ) × ℕ),
      p ∈ qualPairs maxD occ → p.1.1 ≠ p.1.2 ∧ p.2 ≤ maxD) ∧
    (∀ (W : ℕ → ℚ) (maxD : ℕ) (occ : List Occurrence) (e : ℕ × ℕ),
      SMap.get (occGraphSum W maxD occ) e
        = (((qualPairs maxD occ).filter (fun p => decide (p.1 = e))).map
            (fun p => W p.2)).sum) ∧
    (∀ (W : ℕ → ℚ) (maxD : ℕ) (occ : List Occurrence) (e : ℕ × ℕ),
      SMap.get (occGraphMin W maxD occ) e
        = match minList (distsFor (qualPairs maxD occ) e) with
          | none => 0
          | some d => W d) ∧
    (∀ W : ℕ → ℚ,
      SMap.get (occGraphSum W maxDistNone occurrences1) (1, 2) = W 1 + W 2 ∧
      SMap.get (occGraphMin W maxDistNone occurrences1) (1, 2) = W 1 ∧
      SMap.get (occGraphMin W maxDistNone occurrences2) (1, 2) = W 1) := by
  refine ⟨fun maxD occ p hp => qualPairs_mem maxD occ hp,
    fun W maxD occ e => get_mapW W (qualPairs maxD occ) e,
    fun W maxD occ e => ?_, fun W => ⟨?_, ?_, ?_⟩⟩
  · rw [occGraphMin,
      get_mapW_of_lookupD W _ e (keys_minPairs_nodup (qualPairs maxD occ)),
      lookupD_minPairs]
  · norm_num [occGraphSum, qualPairs, pairsOf, occurrences1, maxDistNone,
      sdist, edgeKey, SMap.get]
  · norm_num [occGraphMin, qualPairs, pairsOf, occurrences1, maxDistNone,
      sdist, edgeKey, minPairs, insMin, SMap.get]
  · norm_num [occGraphMin, qualPairs, pairsOf, occurrences2, maxDistNone,
      sdist, edgeKey, minPairs, insMin, SMap.get]

/-- Witness for C5: the qualifying pair `((1,2), 1)` of the first test
occurrence list indeed connects two distinct entities within the
distance bound. -/
theorem occurrence_graph_edge_weights_witness :
    (((1, 2), 1) : (ℕ × ℕ) × ℕ).1.1 ≠ (((1, 2), 1) : (ℕ × ℕ) × ℕ).1.2 ∧
      (((1, 2), 1) : (ℕ × ℕ) × ℕ).2 ≤ maxDistNone :=
  occurrence_graph_edge_weights.1 maxDistNone occurrences1 ((1, 2), 1)
    (by decide)
